import Mathlib

/-!
Verification of the Konnekt4_Game repository.

Shallow embedding of the core of the repository:
* `src/connect4_env.py` — the `EnvConnect4` Gymnasium environment
  (board, legality, win detection, `reset`, `step`);
* `src/policies.py` — the tabular Q-learning policy
  (`PolicyQLearning._get_action`, `PolicyQLearning.update`);
* `src/train_qlearning.py` and `src/train_sarsa.py` — the trainers.

Modelling conventions:
* the Python list `self.board` (length 6·7, values 0/1/2) is a `List ℕ`;
  an indexed read `board[idx]` is `List.getD idx 0`, which agrees with the
  Python read on every in-range index (all indices the code produces are
  in range for a length-42 board);
* Python `float` arithmetic on rewards and Q-values is modelled by exact
  rationals `ℚ` — all the claims under verification are about the algebraic
  form of the updates, not about rounding;
* the sentinel `-1` returned by `_get_drop_row` when a column is full is
  modelled by `Option ℕ` (`none` = the `-1` branch);
* a Python `dict` keyed by strings (the `info` record) or by state tuples
  (the Q-table) is an association list probed front-to-back, with insertion
  appending at the back — the observable lookup behaviour of a `dict`
  whose keys are unique;
* `numpy`'s `-inf` masking is modelled by restricting to the unmasked
  indices: `np.max` over a row whose masked entries are `-inf` is the
  maximum over the unmasked entries whenever at least one entry is
  unmasked, and `np.argmax` of such a row is the first unmasked index
  attaining that maximum (and index 0 when every entry is masked);
* the exploration randomness (`rng.random()`, `rng.choice`) is an oracle
  passed in explicitly as a `Draw` (the uniform sample and the index drawn
  by a uniform choice).
-/

namespace Konnekt4

/-! Section: Board geometry (`EnvConnect4.__init__`, `_idx`) -/

def numRows : ℕ := 6

def numCols : ℕ := 7

abbrev Board := List ℕ

/-- Source `EnvConnect4._idx`: flat index of `(row, col)`. -/
def idx (row col : ℕ) : ℕ := row * numCols + col

/-- Read `board[self._idx(row, col)]` (in range for every index the code
produces on a length-42 board). -/
def cell (b : Board) (row col : ℕ) : ℕ := b.getD (idx row col) 0

/-! Section: Win detection (`EnvConnect4.is_winner`) -/

/-- Source `EnvConnect4.is_winner`: the four scan loops of the source, in source
order (horizontal, vertical, diagonal down-right, diagonal up-right).
`range(3, num_rows)` of the last loop is `List.range' 3 (numRows - 3)`. -/
def is_winner (b : Board) (mark : ℕ) : Bool :=
  ((List.range numRows).any fun row =>
    (List.range (numCols - 3)).any fun col =>
      (List.range 4).all fun i => cell b row (col + i) == mark)
  ||
  ((List.range (numRows - 3)).any fun row =>
    (List.range numCols).any fun col =>
      (List.range 4).all fun i => cell b (row + i) col == mark)
  ||
  ((List.range (numRows - 3)).any fun row =>
    (List.range (numCols - 3)).any fun col =>
      (List.range 4).all fun i => cell b (row + i) (col + i) == mark)
  ||
  ((List.range' 3 (numRows - 3)).any fun row =>
    (List.range (numCols - 3)).any fun col =>
      (List.range 4).all fun i => cell b (row - i) (col + i) == mark)

/-- The specification predicate, written from the spec's words: some row,
column, or diagonal of the board contains 4 consecutive cells equal to
`mark`. -/
def hasFourInARow (b : Board) (mark : ℕ) : Prop :=
  (∃ row, row < numRows ∧ ∃ col, col + 3 < numCols ∧
      ∀ i, i < 4 → cell b row (col + i) = mark)
  ∨ (∃ row, row + 3 < numRows ∧ ∃ col, col < numCols ∧
      ∀ i, i < 4 → cell b (row + i) col = mark)
  ∨ (∃ row, row + 3 < numRows ∧ ∃ col, col + 3 < numCols ∧
      ∀ i, i < 4 → cell b (row + i) (col + i) = mark)
  ∨ (∃ row, 3 ≤ row ∧ row < numRows ∧ ∃ col, col + 3 < numCols ∧
      ∀ i, i < 4 → cell b (row - i) (col + i) = mark)

theorem is_winner_iff (b : Board) (mark : ℕ) :
    is_winner b mark = true ↔ hasFourInARow b mark := by
  unfold is_winner hasFourInARow numRows numCols
  simp only [List.any_eq_true, List.all_eq_true, List.mem_range, List.mem_range',
    beq_iff_eq, Bool.or_eq_true]
  constructor
  · rintro (((⟨r, hr, c, hc, h⟩ | ⟨r, hr, c, hc, h⟩) | ⟨r, hr, c, hc, h⟩) |
      ⟨r, ⟨j, hj, rfl⟩, c, hc, h⟩)
    · exact Or.inl ⟨r, hr, c, by omega, fun i hi => h i hi⟩
    · exact Or.inr (Or.inl ⟨r, by omega, c, hc, fun i hi => h i hi⟩)
    · exact Or.inr (Or.inr (Or.inl ⟨r, by omega, c, by omega, fun i hi => h i hi⟩))
    · exact Or.inr (Or.inr (Or.inr ⟨3 + 1 * j, by omega, by omega, c, by omega,
        fun i hi => h i hi⟩))
  · rintro (⟨r, hr, c, hc, h⟩ | ⟨r, hr, c, hc, h⟩ | ⟨r, hr, c, hc, h⟩ | ⟨r, h3, hr, c, hc, h⟩)
    · exact Or.inl (Or.inl (Or.inl ⟨r, hr, c, by omega, fun i hi => h i hi⟩))
    · exact Or.inl (Or.inl (Or.inr ⟨r, by omega, c, hc, fun i hi => h i hi⟩))
    · exact Or.inl (Or.inr ⟨r, by omega, c, by omega, fun i hi => h i hi⟩)
    · refine Or.inr ⟨r, ⟨r - 3, by omega, by omega⟩, c, by omega, fun i hi => h i hi⟩

/-! Section: Engine state and step (`EnvConnect4.reset`, `EnvConnect4.step`) -/

/-- The mutable state of `EnvConnect4`: `self.board`, `self.turn`,
`self.count_moves`. -/
structure EngineState where
  board : Board
  turn : ℕ
  count_moves : ℕ
deriving DecidableEq, Repr

/-- Source `EnvConnect4._get_legal_actions`: columns whose top cell is empty. -/
def get_legal_actions (b : Board) : List ℕ :=
  (List.range numCols).filter fun col => cell b 0 col == 0

/-- Source `EnvConnect4._get_drop_row`: scan rows bottom-up for the first empty
cell of the column; the Python `-1` sentinel is `none`. -/
def get_drop_row (b : Board) (col : ℕ) : Option ℕ :=
  (List.range numRows).reverse.find? fun row => cell b row col == 0

/-- A value stored in the Python `info` dict. -/
inductive InfoVal where
  | nat : ℕ → InfoVal
  | natList : List ℕ → InfoVal
  | bool : Bool → InfoVal
deriving DecidableEq, Repr

/-- Probe an association list front-to-back, as a Python `dict` lookup
behaves on the unique-key dicts the code builds. -/
def infoLookup : List (String × InfoVal) → String → Option InfoVal
  | [], _ => none
  | (k, v) :: rest, key => if k = key then some v else infoLookup rest key

/-- Source `EnvConnect4._get_info`: the `info` dict, keys in source order. -/
def get_info (s : EngineState) (winner : ℕ) (is_draw : Bool) :
    List (String × InfoVal) :=
  [("board", InfoVal.natList s.board),
   ("turn", InfoVal.nat s.turn),
   ("legal_columns", InfoVal.natList (get_legal_actions s.board)),
   ("count_moves", InfoVal.nat s.count_moves),
   ("winner", InfoVal.nat winner),
   ("is_draw", InfoVal.bool is_draw)]

/-- The observation returned by `_get_obs` (a copy of board and turn). -/
structure Obs where
  board : Board
  turn : ℕ
deriving DecidableEq, Repr

/-- The tuple returned by `EnvConnect4.step`. -/
structure StepOut where
  obs : Obs
  reward : ℚ
  terminated : Bool
  truncated : Bool
  info : List (String × InfoVal)
deriving DecidableEq, Repr

/-- The state established by `EnvConnect4.reset`: all-empty board,
`turn = 1`, `count_moves = 0`. -/
def resetState : EngineState :=
  { board := List.replicate (numRows * numCols) 0, turn := 1, count_moves := 0 }

/-- Source `EnvConnect4.reset`: the new state together with the returned
observation and info record (`winner=0`, `is_draw=False` defaults). -/
def reset : EngineState × Obs × List (String × InfoVal) :=
  (resetState, { board := resetState.board, turn := resetState.turn },
   get_info resetState 0 false)

/-- Source `EnvConnect4.step`, branch for branch in source order: illegal action,
count increment, drop-row with defensive fallback, move application, win
check, draw check, turn flip. The Python method mutates `self` and returns
a tuple; here it returns the new state and the tuple. -/
def step (s : EngineState) (action : ℕ) : EngineState × StepOut :=
  let legal := get_legal_actions s.board
  if action ∉ legal then
    -- illegal move: acting player immediately loses, state untouched
    (s, { obs := { board := s.board, turn := s.turn }, reward := -1,
          terminated := true, truncated := false,
          info := get_info s (if s.turn = 1 then 2 else 1) false })
  else
    let s1 : EngineState := { s with count_moves := s.count_moves + 1 }
    match get_drop_row s1.board action with
    | none =>
      -- defensive fallback in the source (`row == -1`)
      (s1, { obs := { board := s1.board, turn := s1.turn }, reward := -1,
             terminated := true, truncated := false,
             info := get_info s1 (if s1.turn = 1 then 2 else 1) false })
    | some row =>
      let s2 : EngineState := { s1 with board := s1.board.set (idx row action) s1.turn }
      if is_winner s2.board s2.turn then
        (s2, { obs := { board := s2.board, turn := s2.turn }, reward := 1,
               terminated := true, truncated := false,
               info := get_info s2 s2.turn false })
      else if get_legal_actions s2.board = [] then
        (s2, { obs := { board := s2.board, turn := s2.turn }, reward := 0,
               terminated := true, truncated := false,
               info := get_info s2 0 true })
      else
        let s3 : EngineState := { s2 with turn := if s2.turn = 1 then 2 else 1 }
        (s3, { obs := { board := s3.board, turn := s3.turn }, reward := 0,
               terminated := false, truncated := false,
               info := get_info s3 0 false })

/-- Membership in the legal-action list, in the spec's terms: the column is
in range and its top cell is empty. -/
theorem mem_get_legal_actions (b : Board) (a : ℕ) :
    a ∈ get_legal_actions b ↔ a < numCols ∧ cell b 0 a = 0 := by
  unfold get_legal_actions
  simp [List.mem_filter, List.mem_range]

/-! Section: Branch characterizations of `step` -/

theorem step_eq_illegal (s : EngineState) (a : ℕ)
    (hmem : a ∉ get_legal_actions s.board) :
    step s a = (s,
      { obs := { board := s.board, turn := s.turn }, reward := -1,
        terminated := true, truncated := false,
        info := get_info s (if s.turn = 1 then 2 else 1) false }) := by
  simp [step, hmem]

theorem step_eq_fallback (s : EngineState) (a : ℕ)
    (hmem : a ∈ get_legal_actions s.board)
    (hdrop : get_drop_row s.board a = none) :
    step s a = ({ s with count_moves := s.count_moves + 1 },
      { obs := { board := s.board, turn := s.turn }, reward := -1,
        terminated := true, truncated := false,
        info := get_info { s with count_moves := s.count_moves + 1 }
          (if s.turn = 1 then 2 else 1) false }) := by
  simp [step, hmem, hdrop]

theorem step_eq_win (s : EngineState) (a row : ℕ)
    (hmem : a ∈ get_legal_actions s.board)
    (hdrop : get_drop_row s.board a = some row)
    (hwin : is_winner (s.board.set (idx row a) s.turn) s.turn = true) :
    step s a = (⟨s.board.set (idx row a) s.turn, s.turn, s.count_moves + 1⟩,
      { obs := { board := s.board.set (idx row a) s.turn, turn := s.turn },
        reward := 1, terminated := true, truncated := false,
        info := get_info ⟨s.board.set (idx row a) s.turn, s.turn, s.count_moves + 1⟩
          s.turn false }) := by
  simp [step, hmem, hdrop, hwin]

theorem step_eq_draw (s : EngineState) (a row : ℕ)
    (hmem : a ∈ get_legal_actions s.board)
    (hdrop : get_drop_row s.board a = some row)
    (hwin : is_winner (s.board.set (idx row a) s.turn) s.turn = false)
    (hfull : get_legal_actions (s.board.set (idx row a) s.turn) = []) :
    step s a = (⟨s.board.set (idx row a) s.turn, s.turn, s.count_moves + 1⟩,
      { obs := { board := s.board.set (idx row a) s.turn, turn := s.turn },
        reward := 0, terminated := true, truncated := false,
        info := get_info ⟨s.board.set (idx row a) s.turn, s.turn, s.count_moves + 1⟩
          0 true }) := by
  simp [step, hmem, hdrop, hwin, hfull]

theorem step_eq_cont (s : EngineState) (a row : ℕ)
    (hmem : a ∈ get_legal_actions s.board)
    (hdrop : get_drop_row s.board a = some row)
    (hwin : is_winner (s.board.set (idx row a) s.turn) s.turn = false)
    (hfull : get_legal_actions (s.board.set (idx row a) s.turn) ≠ []) :
    step s a = (⟨s.board.set (idx row a) s.turn, if s.turn = 1 then 2 else 1,
        s.count_moves + 1⟩,
      { obs := { board := s.board.set (idx row a) s.turn,
                 turn := if s.turn = 1 then 2 else 1 },
        reward := 0, terminated := false, truncated := false,
        info := get_info ⟨s.board.set (idx row a) s.turn,
          if s.turn = 1 then 2 else 1, s.count_moves + 1⟩ 0 false }) := by
  simp [step, hmem, hdrop, hwin, hfull]

/-! Section: Claims about `step` -/

/-- C2: from every engine state (the reset state included), a `step` with an
out-of-range column or an already-full column returns `terminated = true`,
`reward = -1.0`, `is_draw = false`, and `winner` equal to the non-acting
player (2 if it was player 1's turn, otherwise 1). -/
theorem step_illegal_outcome (s : EngineState) (a : ℕ)
    (h : numCols ≤ a ∨ cell s.board 0 a ≠ 0) :
    (step s a).2.terminated = true ∧ (step s a).2.reward = -1 ∧
    infoLookup (step s a).2.info "is_draw" = some (InfoVal.bool false) ∧
    infoLookup (step s a).2.info "winner" =
      some (InfoVal.nat (if s.turn = 1 then 2 else 1)) := by
  have hmem : a ∉ get_legal_actions s.board := by
    rw [mem_get_legal_actions]
    rintro ⟨h1, h2⟩
    rcases h with h | h
    · omega
    · exact h h2
  rw [step_eq_illegal s a hmem]
  refine ⟨rfl, rfl, ?_, ?_⟩ <;> rfl

/-- C2 witness: stepping with column 7 immediately after reset. -/
theorem step_illegal_outcome_witness :
    (numCols ≤ 7 ∨ cell resetState.board 0 7 ≠ 0) ∧
    ((step resetState 7).2.terminated = true ∧ (step resetState 7).2.reward = -1 ∧
     infoLookup (step resetState 7).2.info "is_draw" = some (InfoVal.bool false) ∧
     infoLookup (step resetState 7).2.info "winner" =
       some (InfoVal.nat (if resetState.turn = 1 then 2 else 1))) :=
  ⟨Or.inl (by decide), step_illegal_outcome resetState 7 (Or.inl (by decide))⟩

/-- C10: a `step` with an illegal action (out-of-range or full column)
leaves the engine state — board, turn, and move count — entirely unchanged,
even though the call reports a terminal loss. -/
theorem step_illegal_state_unchanged (s : EngineState) (a : ℕ)
    (h : numCols ≤ a ∨ cell s.board 0 a ≠ 0) :
    (step s a).1 = s ∧ (step s a).2.terminated = true := by
  have hmem : a ∉ get_legal_actions s.board := by
    rw [mem_get_legal_actions]
    rintro ⟨h1, h2⟩
    rcases h with h | h
    · omega
    · exact h h2
  rw [step_eq_illegal s a hmem]
  exact ⟨rfl, rfl⟩

/-- C10 witness: column 9 from the reset state. -/
theorem step_illegal_state_unchanged_witness :
    (numCols ≤ 9 ∨ cell resetState.board 0 9 ≠ 0) ∧
    ((step resetState 9).1 = resetState ∧ (step resetState 9).2.terminated = true) :=
  ⟨Or.inl (by decide), step_illegal_state_unchanged resetState 9 (Or.inl (by decide))⟩

/-- C6: with the turn one of {1, 2}, a non-terminal `step` flips the turn to
the other player, and a terminal `step` leaves the turn unchanged. -/
theorem step_turn_alternation (s : EngineState) (a : ℕ)
    (hturn : s.turn = 1 ∨ s.turn = 2) :
    ((step s a).2.terminated = false →
      (step s a).1.turn = (if s.turn = 1 then 2 else 1) ∧ (step s a).1.turn ≠ s.turn) ∧
    ((step s a).2.terminated = true → (step s a).1.turn = s.turn) := by
  by_cases hmem : a ∈ get_legal_actions s.board
  · rcases hdrop : get_drop_row s.board a with _ | row
    · rw [step_eq_fallback s a hmem hdrop]
      simp
    · by_cases hwin : is_winner (s.board.set (idx row a) s.turn) s.turn = true
      · rw [step_eq_win s a row hmem hdrop hwin]
        simp
      · have hwin' : is_winner (s.board.set (idx row a) s.turn) s.turn = false :=
          Bool.eq_false_iff.mpr hwin
        by_cases hfull : get_legal_actions (s.board.set (idx row a) s.turn) = []
        · rw [step_eq_draw s a row hmem hdrop hwin' hfull]
          simp
        · rw [step_eq_cont s a row hmem hdrop hwin' hfull]
          refine ⟨fun _ => ⟨rfl, ?_⟩, fun htrue => by simp at htrue⟩
          rcases hturn with h1 | h2
          · rw [h1]; simp
          · rw [h2]; simp
  · rw [step_eq_illegal s a hmem]
    exact ⟨fun hf => by simp at hf, fun _ => rfl⟩

/-- C6 witness: the first move of a fresh game (legal, non-terminal). -/
theorem step_turn_alternation_witness :
    (resetState.turn = 1 ∨ resetState.turn = 2) ∧
    (((step resetState 0).2.terminated = false →
      (step resetState 0).1.turn = (if resetState.turn = 1 then 2 else 1) ∧
      (step resetState 0).1.turn ≠ resetState.turn) ∧
     ((step resetState 0).2.terminated = true →
      (step resetState 0).1.turn = resetState.turn)) :=
  ⟨Or.inl rfl, step_turn_alternation resetState 0 (Or.inl rfl)⟩

/-- Writing one cell: reading back `(r, c)` after setting `(row, col)`. -/
theorem cell_set (b : Board) (row col r c v : ℕ) (hcol : col < numCols)
    (hc : c < numCols) (hidx : idx row col < b.length) :
    cell (b.set (idx row col) v) r c = if r = row ∧ c = col then v else cell b r c := by
  unfold cell idx numCols at *
  by_cases h : r = row ∧ c = col
  · obtain ⟨rfl, rfl⟩ := h
    simp [List.getD_eq_getElem?_getD, List.getElem?_set_self hidx]
  · have hne : row * 7 + col ≠ r * 7 + c := by
      intro he
      exact h (by constructor <;> omega)
    simp [List.getD_eq_getElem?_getD, List.getElem?_set_ne hne, h]

/-- Lemma: `_get_drop_row` on a column with an empty top cell finds the lowest
empty row: the returned row is empty and every row below it is occupied. -/
theorem get_drop_row_spec (b : Board) (col : ℕ) (htop : cell b 0 col = 0) :
    ∃ row, get_drop_row b col = some row ∧ row < numRows ∧ cell b row col = 0 ∧
      ∀ r, row < r → r < numRows → cell b r col ≠ 0 := by
  have hrev : (List.range numRows).reverse = [5, 4, 3, 2, 1, 0] := by decide
  unfold get_drop_row
  rw [hrev]
  by_cases h5 : cell b 5 col = 0
  · refine ⟨5, ?_, by norm_num [numRows], h5, ?_⟩
    · rw [List.find?_cons_of_pos _ (by simp [h5])]
    · intro r hr hr'; unfold numRows at hr'; omega
  · by_cases h4 : cell b 4 col = 0
    · refine ⟨4, ?_, by norm_num [numRows], h4, ?_⟩
      · rw [List.find?_cons_of_neg _ (by simp [h5]),
          List.find?_cons_of_pos _ (by simp [h4])]
      · intro r hr hr'
        unfold numRows at hr'
        interval_cases r
        · exact h5
    · by_cases h3 : cell b 3 col = 0
      · refine ⟨3, ?_, by norm_num [numRows], h3, ?_⟩
        · rw [List.find?_cons_of_neg _ (by simp [h5]),
            List.find?_cons_of_neg _ (by simp [h4]),
            List.find?_cons_of_pos _ (by simp [h3])]
        · intro r hr hr'
          unfold numRows at hr'
          interval_cases r
          · exact h4
          · exact h5
      · by_cases h2 : cell b 2 col = 0
        · refine ⟨2, ?_, by norm_num [numRows], h2, ?_⟩
          · rw [List.find?_cons_of_neg _ (by simp [h5]),
              List.find?_cons_of_neg _ (by simp [h4]),
              List.find?_cons_of_neg _ (by simp [h3]),
              List.find?_cons_of_pos _ (by simp [h2])]
          · intro r hr hr'
            unfold numRows at hr'
            interval_cases r
            · exact h3
            · exact h4
            · exact h5
        · by_cases h1 : cell b 1 col = 0
          · refine ⟨1, ?_, by norm_num [numRows], h1, ?_⟩
            · rw [List.find?_cons_of_neg _ (by simp [h5]),
                List.find?_cons_of_neg _ (by simp [h4]),
                List.find?_cons_of_neg _ (by simp [h3]),
                List.find?_cons_of_neg _ (by simp [h2]),
                List.find?_cons_of_pos _ (by simp [h1])]
            · intro r hr hr'
              unfold numRows at hr'
              interval_cases r
              · exact h2
              · exact h3
              · exact h4
              · exact h5
          · refine ⟨0, ?_, by norm_num [numRows], htop, ?_⟩
            · rw [List.find?_cons_of_neg _ (by simp [h5]),
                List.find?_cons_of_neg _ (by simp [h4]),
                List.find?_cons_of_neg _ (by simp [h3]),
                List.find?_cons_of_neg _ (by simp [h2]),
                List.find?_cons_of_neg _ (by simp [h1]),
                List.find?_cons_of_pos _ (by simp [htop])]
            · intro r hr hr'
              unfold numRows at hr'
              interval_cases r
              · exact h1
              · exact h2
              · exact h3
              · exact h4
              · exact h5

/-- C7: a legal `step` fills exactly the lowest empty cell of the chosen
column with the acting player's mark (that cell was `EMPTY`, every board
cell other than it is unchanged) and increments the move count by one. -/
theorem step_legal_frame (s : EngineState) (a : ℕ)
    (hlen : s.board.length = numRows * numCols)
    (hturn : s.turn = 1 ∨ s.turn = 2)
    (hleg : a ∈ get_legal_actions s.board) :
    ∃ row, get_drop_row s.board a = some row ∧ row < numRows ∧
      cell s.board row a = 0 ∧
      (∀ r, row < r → r < numRows → cell s.board r a ≠ 0) ∧
      (step s a).1.board = s.board.set (idx row a) s.turn ∧
      cell (step s a).1.board row a = s.turn ∧ s.turn ≠ 0 ∧
      (∀ r c, r < numRows → c < numCols → ¬(r = row ∧ c = a) →
        cell (step s a).1.board r c = cell s.board r c) ∧
      (step s a).1.count_moves = s.count_moves + 1 := by
  have hmem := (mem_get_legal_actions s.board a).mp hleg
  obtain ⟨row, hdrop, hrow, hcell, habove⟩ := get_drop_row_spec s.board a hmem.2
  have ha : a < numCols := hmem.1
  have hidx : idx row a < s.board.length := by
    rw [hlen]
    unfold idx numRows numCols at *
    omega
  have hboard : (step s a).1.board = s.board.set (idx row a) s.turn ∧
      (step s a).1.count_moves = s.count_moves + 1 := by
    by_cases hwin : is_winner (s.board.set (idx row a) s.turn) s.turn = true
    · rw [step_eq_win s a row hleg hdrop hwin]; exact ⟨rfl, rfl⟩
    · have hwin' := Bool.eq_false_iff.mpr hwin
      by_cases hfull : get_legal_actions (s.board.set (idx row a) s.turn) = []
      · rw [step_eq_draw s a row hleg hdrop hwin' hfull]; exact ⟨rfl, rfl⟩
      · rw [step_eq_cont s a row hleg hdrop hwin' hfull]; exact ⟨rfl, rfl⟩
  refine ⟨row, hdrop, hrow, hcell, habove, hboard.1, ?_, ?_, ?_, hboard.2⟩
  · rw [hboard.1, cell_set s.board row a row a s.turn ha ha hidx]
    simp
  · rcases hturn with h | h <;> simp [h]
  · intro r c hr hc hne
    rw [hboard.1, cell_set s.board row a r c s.turn ha hc hidx, if_neg hne]

/-- C7 witness: the first move of a fresh game drops into column 0. -/
theorem step_legal_frame_witness :
    (resetState.board.length = numRows * numCols ∧
     (resetState.turn = 1 ∨ resetState.turn = 2) ∧
     0 ∈ get_legal_actions resetState.board) ∧
    (∃ row, get_drop_row resetState.board 0 = some row ∧ row < numRows ∧
      cell resetState.board row 0 = 0 ∧
      (∀ r, row < r → r < numRows → cell resetState.board r 0 ≠ 0) ∧
      (step resetState 0).1.board = resetState.board.set (idx row 0) resetState.turn ∧
      cell (step resetState 0).1.board row 0 = resetState.turn ∧ resetState.turn ≠ 0 ∧
      (∀ r c, r < numRows → c < numCols → ¬(r = row ∧ c = 0) →
        cell (step resetState 0).1.board r c = cell resetState.board r c) ∧
      (step resetState 0).1.count_moves = resetState.count_moves + 1) :=
  ⟨⟨by decide, Or.inl rfl, by decide⟩,
   step_legal_frame resetState 0 (by decide) (Or.inl rfl) (by decide)⟩

/-- C8 counterexample: the engine stores no terminal flag, so terminal
states are not absorbing. From the reset state, stepping with column 7 is
an illegal-move loss (`terminated = true`), yet the very next `step` call
(before any reset) is processed as a normal move and returns
`terminated = false`: play resumes. -/
theorem terminal_not_absorbing_cex :
    (step resetState 7).2.terminated = true ∧
    (step (step resetState 7).1 0).2.terminated = false := by decide

/-- C8 amended: a terminal illegal-move report does not change the engine
state, and the engine keeps no record of termination, so a subsequent
`step` call behaves exactly as if the terminal call had never happened —
in particular play resumes whenever the follow-up action is legal and
non-terminal. -/
theorem terminal_not_absorbing_amended (s : EngineState) (a b : ℕ)
    (hmem : a ∉ get_legal_actions s.board) :
    (step s a).2.terminated = true ∧ step (step s a).1 b = step s b := by
  rw [step_eq_illegal s a hmem]
  exact ⟨rfl, rfl⟩

/-- C8 amended witness: illegal column 7 from reset, then column 0. -/
theorem terminal_not_absorbing_amended_witness :
    (7 ∉ get_legal_actions resetState.board) ∧
    ((step resetState 7).2.terminated = true ∧
     step (step resetState 7).1 0 = step resetState 0) :=
  ⟨by decide, terminal_not_absorbing_amended resetState 7 0 (by decide)⟩

/-- C9 counterexample: the info record has no key `move_count` — the move
counter is stored under the key `count_moves`. -/
theorem info_key_cex :
    infoLookup reset.2.2 "move_count" = none ∧
    infoLookup reset.2.2 "count_moves" ≠ none := by decide

/-- C9 amended: the info records returned by `reset` and by every `step`
call always carry the keys `legal_columns`, `count_moves` (not
`move_count`), `winner`, and `is_draw`; `legal_columns` holds the
legal-column set of the post-call state, `count_moves` its move counter,
`winner` is one of 0/1/2, and `is_draw` is a boolean. -/
theorem info_keys_amended (s : EngineState) (a : ℕ)
    (hturn : s.turn = 1 ∨ s.turn = 2) :
    (infoLookup reset.2.2 "legal_columns" =
        some (InfoVal.natList (get_legal_actions resetState.board)) ∧
     infoLookup reset.2.2 "count_moves" = some (InfoVal.nat 0) ∧
     infoLookup reset.2.2 "winner" = some (InfoVal.nat 0) ∧
     infoLookup reset.2.2 "is_draw" = some (InfoVal.bool false)) ∧
    (infoLookup (step s a).2.info "legal_columns" =
        some (InfoVal.natList (get_legal_actions (step s a).1.board)) ∧
     infoLookup (step s a).2.info "count_moves" =
        some (InfoVal.nat (step s a).1.count_moves) ∧
     (∃ w, infoLookup (step s a).2.info "winner" = some (InfoVal.nat w) ∧
        (w = 0 ∨ w = 1 ∨ w = 2)) ∧
     (∃ d, infoLookup (step s a).2.info "is_draw" = some (InfoVal.bool d))) := by
  refine ⟨⟨rfl, rfl, rfl, rfl⟩, ?_⟩
  by_cases hmem : a ∈ get_legal_actions s.board
  · rcases hdrop : get_drop_row s.board a with _ | row
    · rw [step_eq_fallback s a hmem hdrop]
      refine ⟨rfl, rfl, ⟨if s.turn = 1 then 2 else 1, rfl, ?_⟩, ⟨false, rfl⟩⟩
      rcases hturn with h | h <;> simp [h]
    · by_cases hwin : is_winner (s.board.set (idx row a) s.turn) s.turn = true
      · rw [step_eq_win s a row hmem hdrop hwin]
        exact ⟨rfl, rfl, ⟨s.turn, rfl, by omega⟩, ⟨false, rfl⟩⟩
      · have hwin' := Bool.eq_false_iff.mpr hwin
        by_cases hfull : get_legal_actions (s.board.set (idx row a) s.turn) = []
        · rw [step_eq_draw s a row hmem hdrop hwin' hfull]
          exact ⟨rfl, rfl, ⟨0, rfl, Or.inl rfl⟩, ⟨true, rfl⟩⟩
        · rw [step_eq_cont s a row hmem hdrop hwin' hfull]
          exact ⟨rfl, rfl, ⟨0, rfl, Or.inl rfl⟩, ⟨false, rfl⟩⟩
  · rw [step_eq_illegal s a hmem]
    refine ⟨rfl, rfl, ⟨if s.turn = 1 then 2 else 1, rfl, ?_⟩, ⟨false, rfl⟩⟩
    rcases hturn with h | h <;> simp [h]

/-- C9 amended witness: the reset state and its first step. -/
theorem info_keys_amended_witness :
    (resetState.turn = 1 ∨ resetState.turn = 2) ∧
    ((infoLookup reset.2.2 "legal_columns" =
        some (InfoVal.natList (get_legal_actions resetState.board)) ∧
      infoLookup reset.2.2 "count_moves" = some (InfoVal.nat 0) ∧
      infoLookup reset.2.2 "winner" = some (InfoVal.nat 0) ∧
      infoLookup reset.2.2 "is_draw" = some (InfoVal.bool false)) ∧
     (infoLookup (step resetState 3).2.info "legal_columns" =
        some (InfoVal.natList (get_legal_actions (step resetState 3).1.board)) ∧
      infoLookup (step resetState 3).2.info "count_moves" =
        some (InfoVal.nat (step resetState 3).1.count_moves) ∧
      (∃ w, infoLookup (step resetState 3).2.info "winner" = some (InfoVal.nat w) ∧
        (w = 0 ∨ w = 1 ∨ w = 2)) ∧
      (∃ d, infoLookup (step resetState 3).2.info "is_draw" =
        some (InfoVal.bool d)))) :=
  ⟨Or.inl rfl, info_keys_amended resetState 3 (Or.inl rfl)⟩

/-! Section: Tabular Q-learning (`src/policies.py`, `PolicyQLearning`) -/

/-- A `StateKey` is the tuple `tuple(observation["board"]) + (turn,)`
(`PolicyQLearning._state_key`), flattened to one list of naturals. -/
abbrev StateKey := List ℕ

/-- Source `PolicyQLearning._state_key`. -/
def state_key (o : Obs) : StateKey := o.board ++ [o.turn]

/-- The Q-table `self.Q`: a dict from state keys to rows of `n_actions`
action values, modelled as an association list with insertion at the back
(Python dicts preserve insertion order and the code keeps keys unique). -/
abbrev QTable := List (StateKey × List ℚ)

/-- Source `self.n_actions = env.action_space.n`. -/
def nActions : ℕ := numCols

/-- Source `np.zeros(self.n_actions)`. -/
def zerosRow : List ℚ := List.replicate nActions 0

/-- Python `dict` lookup on the tables the code builds. -/
def qlookup : QTable → StateKey → Option (List ℚ)
  | [], _ => none
  | (k, v) :: rest, s => if k = s then some v else qlookup rest s

/-- Source `PolicyQLearning._ensure`: create a zero row on first reference. -/
def ensure (Q : QTable) (s : StateKey) : QTable :=
  match qlookup Q s with
  | some _ => Q
  | none => Q ++ [(s, zerosRow)]

/-- The row `self.Q[s]` (callers establish presence before reading). -/
def qrow (Q : QTable) (s : StateKey) : List ℚ := (qlookup Q s).getD zerosRow

/-- The entry `self.Q[s][a]`. -/
def qget (Q : QTable) (s : StateKey) (a : ℕ) : ℚ := (qrow Q s).getD a 0

/-- The in-place write `self.Q[s][a] = v`. -/
def qset (Q : QTable) (s : StateKey) (a : ℕ) (v : ℚ) : QTable :=
  Q.map fun p => if p.1 = s then (p.1, p.2.set a v) else p

/-- Source `PolicyQLearning.update`, line for line.  The bootstrap maximum is
`np.max` of the row at `s_next` with every action outside `legal_next`
masked to `-inf`; when at least one in-range action is unmasked this is the
maximum over the unmasked entries.  When every entry is masked NumPy's
maximum is `-inf` itself, which `ℚ` cannot represent, so the embedding
returns `none` on that branch (the trainers never reach it: `done = false`
states always have a legal column). -/
def update (alpha gamma : ℚ) (Q : QTable) (s : StateKey) (a : ℕ) (r : ℚ)
    (s_next : StateKey) (legal_next : List ℕ) (done : Bool) : Option QTable :=
  let Q2 := ensure (ensure Q s) s_next
  let targetOpt : Option ℚ :=
    if done then some r
    else
      match (((List.range nActions).filter fun aa => aa ∈ legal_next).map
          fun aa => (qrow Q2 s_next).getD aa 0).max? with
      | some m => some (r + gamma * m)
      | none => none
  targetOpt.map fun target =>
    qset Q2 s a (qget Q2 s a + alpha * (target - qget Q2 s a))

/-! Section: Q-table lemmas -/

theorem qlookup_cons (k : StateKey) (w : List ℚ) (rest : QTable) (t : StateKey) :
    qlookup ((k, w) :: rest) t = if k = t then some w else qlookup rest t := rfl

theorem qlookup_append_single (Q : QTable) (s t : StateKey) (row : List ℚ) :
    qlookup (Q ++ [(s, row)]) t =
      match qlookup Q t with
      | some v => some v
      | none => if s = t then some row else none := by
  induction Q with
  | nil => simp [qlookup]
  | cons p rest ih =>
    obtain ⟨k, v⟩ := p
    by_cases hk : k = t
    · simp [qlookup, hk]
    · rw [List.cons_append, qlookup_cons, if_neg hk, qlookup_cons, if_neg hk, ih]

theorem qget_ensure (Q : QTable) (s t : StateKey) (a : ℕ) :
    qget (ensure Q s) t a = qget Q t a := by
  unfold ensure
  cases h : qlookup Q s with
  | some v => rfl
  | none =>
    unfold qget qrow
    rw [qlookup_append_single]
    cases h2 : qlookup Q t with
    | some v => rfl
    | none =>
      by_cases hst : s = t
      · simp [hst, zerosRow]
      · simp [hst]

theorem qlookup_ensure_isSome (Q : QTable) (s t : StateKey) :
    (qlookup (ensure Q s) t).isSome ↔ ((qlookup Q t).isSome ∨ t = s) := by
  unfold ensure
  cases h : qlookup Q s with
  | some v =>
    simp only [Option.isSome_some, iff_self_or]
    rintro rfl
    simp [h]
  | none =>
    rw [qlookup_append_single]
    cases h2 : qlookup Q t with
    | some v => simp
    | none =>
      by_cases hst : s = t
      · simp [hst]
      · simp [hst, Ne.symm hst]

theorem qlookup_mem (Q : QTable) (t : StateKey) (v : List ℚ)
    (h : qlookup Q t = some v) : (t, v) ∈ Q := by
  induction Q with
  | nil => simp [qlookup] at h
  | cons p rest ih =>
    obtain ⟨k, w⟩ := p
    by_cases hk : k = t
    · rw [qlookup, if_pos hk] at h
      subst hk
      obtain rfl : w = v := by injection h
      exact List.mem_cons_self _ _
    · rw [qlookup, if_neg hk] at h
      exact List.mem_cons_of_mem _ (ih h)

theorem wf_ensure (Q : QTable) (s : StateKey)
    (hwf : ∀ p ∈ Q, p.2.length = nActions) :
    ∀ p ∈ ensure Q s, p.2.length = nActions := by
  unfold ensure
  cases h : qlookup Q s with
  | some v => exact hwf
  | none =>
    intro p hp
    rcases List.mem_append.mp hp with hp | hp
    · exact hwf p hp
    · obtain rfl : p = (s, zerosRow) := by simpa using hp
      simp [zerosRow]

theorem qlookup_qset (Q : QTable) (s : StateKey) (a : ℕ) (v : ℚ) (t : StateKey) :
    qlookup (qset Q s a v) t =
      (qlookup Q t).map fun row => if t = s then row.set a v else row := by
  induction Q with
  | nil => simp [qlookup, qset]
  | cons p rest ih =>
    obtain ⟨k, w⟩ := p
    by_cases hs : k = s
    · subst hs
      have hhead : qset ((k, w) :: rest) k a v = (k, w.set a v) :: qset rest k a v := by
        simp [qset]
      rw [hhead, qlookup_cons, qlookup_cons]
      by_cases hk : k = t
      · subst hk
        simp [ih]
      · rw [if_neg hk, if_neg hk, ih]
    · have hhead : qset ((k, w) :: rest) s a v = (k, w) :: qset rest s a v := by
        simp [qset, hs]
      rw [hhead, qlookup_cons, qlookup_cons]
      by_cases hk : k = t
      · subst hk
        rw [if_pos rfl, if_pos rfl]
        simp [hs]
      · rw [if_neg hk, if_neg hk, ih]

theorem qget_qset (Q : QTable) (s : StateKey) (a : ℕ) (v : ℚ) (t : StateKey) (b : ℕ)
    (hwf : ∀ p ∈ Q, p.2.length = nActions) (ha : a < nActions)
    (hs : (qlookup Q s).isSome) :
    qget (qset Q s a v) t b = if t = s ∧ b = a then v else qget Q t b := by
  unfold qget qrow
  rw [qlookup_qset]
  cases h : qlookup Q t with
  | none =>
    have hne : ¬(t = s ∧ b = a) := by
      rintro ⟨rfl, -⟩
      rw [h] at hs
      simp at hs
    rw [if_neg hne]
    rfl
  | some row =>
    have hrowlen : row.length = nActions := hwf (t, row) (qlookup_mem Q t row h)
    by_cases hts : t = s
    · subst hts
      by_cases hba : b = a
      · subst hba
        rw [if_pos ⟨rfl, rfl⟩]
        simp only [Option.map_some, Option.map_some', eq_self_iff_true, if_true,
          Option.getD_some]
        rw [List.getD_eq_getElem?_getD,
          List.getElem?_set_self (show b < row.length by omega)]
        rfl
      · rw [if_neg (fun hc => hba hc.2)]
        simp only [Option.map_some, Option.map_some', eq_self_iff_true, if_true,
          Option.getD_some]
        rw [List.getD_eq_getElem?_getD, List.getElem?_set_ne (Ne.symm hba),
          ← List.getD_eq_getElem?_getD]
    · rw [if_neg (fun hc => hts hc.1)]
      simp [hts]

theorem qlookup_qset_isSome (Q : QTable) (s : StateKey) (a : ℕ) (v : ℚ)
    (t : StateKey) :
    (qlookup (qset Q s a v) t).isSome = (qlookup Q t).isSome := by
  rw [qlookup_qset]
  cases qlookup Q t <;> rfl

theorem update_true_eq (alpha gamma : ℚ) (Q : QTable) (s : StateKey) (a : ℕ)
    (r : ℚ) (s_next : StateKey) (legal_next : List ℕ) :
    update alpha gamma Q s a r s_next legal_next true =
      some (qset (ensure (ensure Q s) s_next) s a
        (qget (ensure (ensure Q s) s_next) s a +
          alpha * (r - qget (ensure (ensure Q s) s_next) s a))) := rfl

theorem update_false_eq (alpha gamma : ℚ) (Q : QTable) (s : StateKey) (a : ℕ)
    (r : ℚ) (s_next : StateKey) (legal_next : List ℕ) (M : ℚ)
    (hM : (((List.range nActions).filter fun aa => aa ∈ legal_next).map
        fun aa => (qrow (ensure (ensure Q s) s_next) s_next).getD aa 0).max? =
      some M) :
    update alpha gamma Q s a r s_next legal_next false =
      some (qset (ensure (ensure Q s) s_next) s a
        (qget (ensure (ensure Q s) s_next) s a +
          alpha * ((r + gamma * M) - qget (ensure (ensure Q s) s_next) s a))) := by
  simp only [update]
  rw [if_neg Bool.false_ne_true, hM]
  rfl

/-- C3: `PolicyQLearning.update` overwrites exactly the entry `Q[s][a]`
with `Q[s][a] + alpha * (target - Q[s][a])` where `target` is `r` when done
and `r + gamma * max(Q[s_next] over the legal actions)` otherwise, creating
zero rows for `s` and `s_next` when absent (every entry keeps its read
value: absent rows read as 0) and touching no other entry or key. -/
theorem update_spec (alpha gamma : ℚ) (Q : QTable) (s : StateKey) (a : ℕ) (r : ℚ)
    (s_next : StateKey) (legal_next : List ℕ) (done : Bool)
    (hwf : ∀ p ∈ Q, p.2.length = nActions) (ha : a < nActions)
    (hleg : done = false → ∃ aa, aa ∈ legal_next ∧ aa < nActions) :
    ∃ Q' target,
      update alpha gamma Q s a r s_next legal_next done = some Q' ∧
      (done = true → target = r) ∧
      (done = false →
        ∃ M, M ∈ (((List.range nActions).filter fun aa => aa ∈ legal_next).map
            fun aa => qget Q s_next aa) ∧
          (∀ x ∈ (((List.range nActions).filter fun aa => aa ∈ legal_next).map
            fun aa => qget Q s_next aa), x ≤ M) ∧
          target = r + gamma * M) ∧
      qget Q' s a = qget Q s a + alpha * (target - qget Q s a) ∧
      (∀ t b, ¬(t = s ∧ b = a) → qget Q' t b = qget Q t b) ∧
      (∀ t, (qlookup Q' t).isSome ↔
        ((qlookup Q t).isSome ∨ t = s ∨ t = s_next)) := by
  have hwf2 : ∀ p ∈ ensure (ensure Q s) s_next, p.2.length = nActions :=
    wf_ensure _ _ (wf_ensure _ _ hwf)
  have hsSome : (qlookup (ensure (ensure Q s) s_next) s).isSome := by
    rw [qlookup_ensure_isSome]
    exact Or.inl (by rw [qlookup_ensure_isSome]; exact Or.inr rfl)
  have hq2 : ∀ t b, qget (ensure (ensure Q s) s_next) t b = qget Q t b := by
    intro t b
    rw [qget_ensure, qget_ensure]
  have hdom : ∀ t, (qlookup (ensure (ensure Q s) s_next) t).isSome ↔
      ((qlookup Q t).isSome ∨ t = s ∨ t = s_next) := by
    intro t
    rw [qlookup_ensure_isSome, qlookup_ensure_isSome]
    tauto
  cases done with
  | true =>
    refine ⟨_, r, update_true_eq alpha gamma Q s a r s_next legal_next,
      fun _ => rfl, by simp, ?_, ?_, ?_⟩
    · rw [qget_qset _ _ _ _ _ _ hwf2 ha hsSome, if_pos ⟨rfl, rfl⟩, hq2]
    · intro t b htb
      rw [qget_qset _ _ _ _ _ _ hwf2 ha hsSome, if_neg htb, hq2]
    · intro t
      rw [qlookup_qset_isSome]
      exact hdom t
  | false =>
    obtain ⟨aa, haaL, haaN⟩ := hleg rfl
    have hne : ((List.range nActions).filter fun x => x ∈ legal_next) ≠ [] := by
      intro hnil
      have hmm : aa ∈ (List.range nActions).filter fun x => x ∈ legal_next := by
        rw [List.mem_filter]
        exact ⟨List.mem_range.mpr haaN, by simpa using haaL⟩
      rw [hnil] at hmm
      simp at hmm
    have hfun : (fun x => (qrow (ensure (ensure Q s) s_next) s_next).getD x 0) =
        fun x => qget Q s_next x := funext fun x => hq2 s_next x
    obtain ⟨M, hM⟩ : ∃ M, ((((List.range nActions).filter fun x => x ∈ legal_next).map
        fun x => qget Q s_next x)).max? = some M := by
      cases hM : ((((List.range nActions).filter fun x => x ∈ legal_next).map
          fun x => qget Q s_next x)).max? with
      | none =>
        rw [List.max?_eq_none_iff] at hM
        simp only [List.map_eq_nil_iff] at hM
        exact absurd hM hne
      | some M => exact ⟨M, rfl⟩
    have hM' : (((List.range nActions).filter fun x => x ∈ legal_next).map
        fun x => (qrow (ensure (ensure Q s) s_next) s_next).getD x 0).max? =
        some M := by
      rw [hfun]
      exact hM
    refine ⟨_, r + gamma * M,
      update_false_eq alpha gamma Q s a r s_next legal_next M hM', by simp,
      fun _ => ⟨M, List.max?_mem (fun x y => max_choice x y) hM,
        (List.max?_le_iff (fun x y z => max_le_iff) hM).mp le_rfl, rfl⟩,
      ?_, ?_, ?_⟩
    · rw [qget_qset _ _ _ _ _ _ hwf2 ha hsSome, if_pos ⟨rfl, rfl⟩, hq2]
    · intro t b htb
      rw [qget_qset _ _ _ _ _ _ hwf2 ha hsSome, if_neg htb, hq2]
    · intro t
      rw [qlookup_qset_isSome]
      exact hdom t

/-- C3 witness: a concrete update with `alpha = gamma = 1/2`, empty table,
`done = false`, one legal next action. -/
theorem update_spec_witness :
    ((∀ p ∈ ([] : QTable), p.2.length = nActions) ∧ 0 < nActions ∧
      ((false : Bool) = false → ∃ aa, aa ∈ [3] ∧ aa < nActions)) ∧
    (∃ Q' target,
      update (1/2) (1/2) [] [1, 1] 0 1 [2, 2] [3] false = some Q' ∧
      ((false : Bool) = true → target = 1) ∧
      ((false : Bool) = false →
        ∃ M, M ∈ (((List.range nActions).filter fun aa => aa ∈ [3]).map
            fun aa => qget [] [2, 2] aa) ∧
          (∀ x ∈ (((List.range nActions).filter fun aa => aa ∈ [3]).map
            fun aa => qget [] [2, 2] aa), x ≤ M) ∧
          target = 1 + 1/2 * M) ∧
      qget Q' [1, 1] 0 = qget [] [1, 1] 0 + 1/2 * (target - qget [] [1, 1] 0) ∧
      (∀ t b, ¬(t = [1, 1] ∧ b = 0) → qget Q' t b = qget [] t b) ∧
      (∀ t, (qlookup Q' t).isSome ↔
        ((qlookup ([] : QTable) t).isSome ∨ t = [1, 1] ∨ t = [2, 2]))) :=
  ⟨⟨by simp, by decide, fun _ => ⟨3, by simp, by decide⟩⟩,
   update_spec (1/2) (1/2) [] [1, 1] 0 1 [2, 2] [3] false (by simp) (by decide)
     (fun _ => ⟨3, by simp, by decide⟩)⟩

/-! Section: Epsilon-greedy action selection (`PolicyQLearning._get_action`) -/

/-- The random draws one `_get_action` call can consume: the uniform sample
`rng.random()` compared against epsilon, and the position drawn by
`rng.choice` over the legal actions. -/
structure Draw where
  u : ℚ
  pick : ℕ

/-- Source `rng.choice(legal)`: a uniform choice among the legal actions, the drawn
position supplied by the oracle. -/
def choose (legal : List ℕ) (pick : ℕ) : ℕ := legal.getD (pick % legal.length) 0

/-- Source `np.argmax` of the Q row with the actions outside `legal` masked to
`-inf`: the first in-range legal index attaining the maximal value among
legal ones (and index 0 when every entry is masked, as NumPy returns for an
all-`-inf` array). -/
def argmaxMasked (row : List ℚ) (legal : List ℕ) : ℕ :=
  match (List.range nActions).filter (fun aa => aa ∈ legal) with
  | [] => 0
  | a0 :: rest =>
    rest.foldl (fun best x => if row.getD best 0 < row.getD x 0 then x else best) a0

/-- Source `PolicyQLearning._get_action`: ensure the row for `s` exists, then with
probability epsilon explore (uniform choice among legal actions), else
exploit the masked argmax of the row.  Returns the updated table (the
`_ensure` side effect) with the chosen action. -/
def get_action (Q : QTable) (epsilon : ℚ) (legal : List ℕ) (s : StateKey)
    (d : Draw) : QTable × ℕ :=
  let Q1 := ensure Q s
  if d.u < epsilon then (Q1, choose legal d.pick)
  else (Q1, argmaxMasked (qrow Q1 s) legal)

theorem get_action_fst (Q : QTable) (epsilon : ℚ) (legal : List ℕ)
    (s : StateKey) (d : Draw) :
    (get_action Q epsilon legal s d).1 = ensure Q s := by
  simp only [get_action]
  by_cases hu : d.u < epsilon
  · rw [if_pos hu]
  · rw [if_neg hu]

theorem choose_mem (legal : List ℕ) (pick : ℕ) (h : legal ≠ []) :
    choose legal pick ∈ legal := by
  unfold choose
  have hlen : 0 < legal.length := List.length_pos.mpr h
  have hmod : pick % legal.length < legal.length := Nat.mod_lt _ hlen
  rw [List.getD_eq_getElem?_getD, List.getElem?_eq_getElem hmod]
  exact List.getElem_mem hmod

theorem argmax_foldl_mem (row : List ℚ) (a0 : ℕ) (rest : List ℕ) :
    rest.foldl (fun best x => if row.getD best 0 < row.getD x 0 then x else best) a0
      ∈ a0 :: rest := by
  induction rest generalizing a0 with
  | nil => simp
  | cons y ys ih =>
    simp only [List.foldl_cons]
    by_cases hxy : row.getD a0 0 < row.getD y 0
    · rw [if_pos hxy]
      exact List.mem_cons_of_mem a0 (ih y)
    · rw [if_neg hxy]
      rcases List.mem_cons.mp (ih a0) with h | h
      · exact List.mem_cons.mpr (Or.inl h)
      · exact List.mem_cons.mpr (Or.inr (List.mem_cons_of_mem y h))

theorem argmaxMasked_lt (row : List ℚ) (legal : List ℕ) :
    argmaxMasked row legal < nActions := by
  unfold argmaxMasked
  cases hf : (List.range nActions).filter (fun aa => aa ∈ legal) with
  | nil => norm_num [nActions, numCols]
  | cons a0 rest =>
    have hmem : (rest.foldl
        (fun best x => if row.getD best 0 < row.getD x 0 then x else best) a0)
        ∈ (List.range nActions).filter (fun aa => aa ∈ legal) := by
      rw [hf]
      exact argmax_foldl_mem row a0 rest
    exact List.mem_range.mp (List.mem_filter.mp hmem).1

theorem get_action_snd_lt (Q : QTable) (epsilon : ℚ) (b : Board)
    (s : StateKey) (d : Draw) :
    (get_action Q epsilon (get_legal_actions b) s d).2 < nActions := by
  simp only [get_action]
  by_cases hu : d.u < epsilon
  · rw [if_pos hu]
    by_cases hleg : get_legal_actions b = []
    · simp [choose, hleg, nActions, numCols]
    · have hm := choose_mem _ d.pick hleg
      have := ((mem_get_legal_actions b _).mp hm).1
      simpa [nActions] using this
  · rw [if_neg hu]
    exact argmaxMasked_lt _ _

/-! Section: One agent decision of `train_sarsa_vs_random` -/

/-- The agent-turn body of the while loop of `train_sarsa_vs_random`
(`src/train_sarsa.py`), statement for statement:
`s = key(observation)`; `a = agent._get_action(env, observation)`;
`env.step(a)`; `s_next = key(obs_next)`; lazily create `Q[s_next]`;
`target = r` when done, else `target = r + gamma * Q[s_next][a_next]` with
`a_next = agent._get_action(env, obs_next)` (the epsilon-greedy policy on
the post-move engine state); finally
`Q[s][a] += alpha * (target - Q[s][a])`.  Returns the new engine state, the
new table, the `done` flag and the observation carried into the next
iteration. -/
def sarsaAgentMove (alpha gamma epsilon : ℚ) (env : EngineState) (Q : QTable)
    (obs : Obs) (d1 d2 : Draw) : EngineState × QTable × Bool × Obs :=
  let s := state_key obs
  let p1 := get_action Q epsilon (get_legal_actions env.board) s d1
  let a := p1.2
  let res := step env a
  let out := res.2
  let r := out.reward
  let done := out.terminated || out.truncated
  let s_next := state_key out.obs
  let Qb := ensure p1.1 s_next
  if done then
    let target := r
    (res.1, qset Qb s a (qget Qb s a + alpha * (target - qget Qb s a)), done, out.obs)
  else
    let p2 := get_action Qb epsilon (get_legal_actions res.1.board) s_next d2
    let target := r + gamma * qget p2.1 s_next p2.2
    (res.1, qset p2.1 s a (qget p2.1 s a + alpha * (target - qget p2.1 s a)), done,
      out.obs)

/-- C5: in the SARSA trainer, with `s, a, r, s'` the observed transition of
the learning agent's move, the applied update is
`Q[s][a] += alpha * (target - Q[s][a])` with `target = r` when the move
ended the episode and `target = r + gamma * Q[s'][a']` otherwise, where
`a'` is the action the same epsilon-greedy behaviour policy selects for
`s'`; no other table entry changes. -/
theorem sarsa_target_spec (alpha gamma epsilon : ℚ) (env : EngineState)
    (Q : QTable) (obs : Obs) (d1 d2 : Draw) (a a_next : ℕ) (r : ℚ)
    (done : Bool) (s s_next : StateKey)
    (hwf : ∀ p ∈ Q, p.2.length = nActions)
    (hs : s = state_key obs)
    (ha : a = (get_action Q epsilon (get_legal_actions env.board) s d1).2)
    (hr : r = (step env a).2.reward)
    (hdone : done = ((step env a).2.terminated || (step env a).2.truncated))
    (hsn : s_next = state_key (step env a).2.obs)
    (han : a_next = (get_action (ensure (ensure Q s) s_next) epsilon
        (get_legal_actions (step env a).1.board) s_next d2).2) :
    ∃ Q', sarsaAgentMove alpha gamma epsilon env Q obs d1 d2 =
        ((step env a).1, Q', done, (step env a).2.obs) ∧
      qget Q' s a = qget Q s a +
        alpha * ((if done = true then r else r + gamma * qget Q s_next a_next) -
          qget Q s a) ∧
      (∀ t b, ¬(t = s ∧ b = a) → qget Q' t b = qget Q t b) := by
  subst hs ha hr hdone hsn han
  simp only [sarsaAgentMove, get_action_fst]
  have halt : (get_action Q epsilon (get_legal_actions env.board) (state_key obs)
      d1).2 < nActions := get_action_snd_lt Q epsilon env.board (state_key obs) d1
  have hwfb : ∀ p ∈ ensure (ensure Q (state_key obs))
      (state_key (step env (get_action Q epsilon (get_legal_actions env.board)
        (state_key obs) d1).2).2.obs), p.2.length = nActions :=
    wf_ensure _ _ (wf_ensure _ _ hwf)
  have hsSomeB : (qlookup (ensure (ensure Q (state_key obs))
      (state_key (step env (get_action Q epsilon (get_legal_actions env.board)
        (state_key obs) d1).2).2.obs)) (state_key obs)).isSome := by
    rw [qlookup_ensure_isSome]
    exact Or.inl (by rw [qlookup_ensure_isSome]; exact Or.inr rfl)
  by_cases hdn : ((step env (get_action Q epsilon (get_legal_actions env.board)
      (state_key obs) d1).2).2.terminated ||
    (step env (get_action Q epsilon (get_legal_actions env.board)
      (state_key obs) d1).2).2.truncated) = true
  · rw [if_pos hdn, if_pos hdn]
    refine ⟨_, rfl, ?_, ?_⟩
    · rw [qget_qset _ _ _ _ _ _ hwfb halt hsSomeB, if_pos ⟨rfl, rfl⟩,
        qget_ensure, qget_ensure]
    · intro t b htb
      rw [qget_qset _ _ _ _ _ _ hwfb halt hsSomeB, if_neg htb,
        qget_ensure, qget_ensure]
  · rw [if_neg hdn, if_neg (by simpa using hdn)]
    have hwfc : ∀ p ∈ ensure (ensure (ensure Q (state_key obs))
        (state_key (step env (get_action Q epsilon (get_legal_actions env.board)
          (state_key obs) d1).2).2.obs))
        (state_key (step env (get_action Q epsilon (get_legal_actions env.board)
          (state_key obs) d1).2).2.obs), p.2.length = nActions :=
      wf_ensure _ _ hwfb
    have hsSomeC : (qlookup (ensure (ensure (ensure Q (state_key obs))
        (state_key (step env (get_action Q epsilon (get_legal_actions env.board)
          (state_key obs) d1).2).2.obs))
        (state_key (step env (get_action Q epsilon (get_legal_actions env.board)
          (state_key obs) d1).2).2.obs)) (state_key obs)).isSome := by
      rw [qlookup_ensure_isSome]
      exact Or.inl hsSomeB
    refine ⟨_, rfl, ?_, ?_⟩
    · rw [qget_qset _ _ _ _ _ _ hwfc halt hsSomeC, if_pos ⟨rfl, rfl⟩,
        qget_ensure, qget_ensure, qget_ensure, qget_ensure, qget_ensure,
        qget_ensure]
    · intro t b htb
      rw [qget_qset _ _ _ _ _ _ hwfc halt hsSomeC, if_neg htb,
        qget_ensure, qget_ensure, qget_ensure]

/-- C5 witness: the first agent move of a fresh game, empty table,
`alpha = gamma = 1/2`, `epsilon = 1`, exploring draws that pick column 0. -/
theorem sarsa_target_spec_witness :
    ((∀ p ∈ ([] : QTable), p.2.length = nActions) ∧
     state_key reset.2.1 = state_key reset.2.1 ∧
     0 = (get_action [] 1 (get_legal_actions resetState.board)
        (state_key reset.2.1) ⟨0, 0⟩).2 ∧
     (0 : ℚ) = (step resetState 0).2.reward ∧
     false = ((step resetState 0).2.terminated || (step resetState 0).2.truncated) ∧
     state_key (step resetState 0).2.obs = state_key (step resetState 0).2.obs ∧
     0 = (get_action (ensure (ensure [] (state_key reset.2.1))
        (state_key (step resetState 0).2.obs)) 1
        (get_legal_actions (step resetState 0).1.board)
        (state_key (step resetState 0).2.obs) ⟨0, 0⟩).2) ∧
    (∃ Q', sarsaAgentMove (1/2) (1/2) 1 resetState [] reset.2.1 ⟨0, 0⟩ ⟨0, 0⟩ =
        ((step resetState 0).1, Q', false, (step resetState 0).2.obs) ∧
      qget Q' (state_key reset.2.1) 0 = qget [] (state_key reset.2.1) 0 +
        1/2 * ((if false = true then 0 else 0 + 1/2 *
          qget [] (state_key (step resetState 0).2.obs) 0) -
          qget [] (state_key reset.2.1) 0) ∧
      (∀ t b, ¬(t = state_key reset.2.1 ∧ b = 0) → qget Q' t b = qget [] t b)) :=
  ⟨⟨by simp, rfl, by decide, by decide, by decide, rfl, by decide⟩,
   sarsa_target_spec (1/2) (1/2) 1 resetState [] reset.2.1 ⟨0, 0⟩ ⟨0, 0⟩ 0 0 0 false
     (state_key reset.2.1) (state_key (step resetState 0).2.obs)
     (by simp) rfl (by decide) (by decide) (by decide) rfl (by decide)⟩

/-! Section: The Q-learning trainer's info lookup (`src/train_qlearning.py`) -/

/-- C4: `train_q_learning_vs_random` reads the legal-action set for the
temporal-difference update as `info["legal columns"]` (a key containing a
space), but the info record built by `EnvConnect4._get_info` stores it
under `"legal_columns"`.  The lookup therefore fails (a `KeyError` in
Python) on every learning-agent update, on every info record the engine can
ever produce — the trainer never completes a single update. -/
theorem qlearning_legal_columns_lookup_fails (s : EngineState) (winner : ℕ)
    (is_draw : Bool) :
    infoLookup (get_info s winner is_draw) "legal columns" = none ∧
    infoLookup (get_info s winner is_draw) "legal_columns" =
      some (InfoVal.natList (get_legal_actions s.board)) :=
  ⟨rfl, rfl⟩

end Konnekt4
